import Mathlib

/-!
Verification of the arrow-rs core specification against a shallow Lean
embedding of the repository's source.

Embedded source files:
* `arrow-schema/src/error.rs` — the `ArrowError` taxonomy, its `source()`
  accessor and the UTF-8 conversion impls.
* `arrow-buffer/src/allocation/mod.rs` — the `Allocation` marker trait and
  the `Deallocation` descriptor with its `Debug` rendering.
* The `ArrayData` logical container, slicing, null counting, filtering and
  the bitmap range population count are declared by `arrow-data/src/lib.rs`
  but their module bodies are not part of the source tree; those components
  are modelled from the specification text (each such definition says so in
  its doc comment).
-/

/-! ## ArrowError (`arrow-schema/src/error.rs`) -/

mutual

/-- Embedding of `pub enum ArrowError` (error.rs lines 30-50): a closed
tagged union with exactly seventeen constructors, in source order.
`ExternalError` holds a boxed `dyn Error + Send + Sync`, modelled by
`DynError`. -/
inductive ArrowError : Type where
  | NotYetImplemented (msg : String)
  | ExternalError (e : DynError)
  | CastError (msg : String)
  | MemoryError (msg : String)
  | ParseError (msg : String)
  | SchemaError (msg : String)
  | ComputeError (msg : String)
  | DivideByZero
  | ArithmeticOverflow (msg : String)
  | CsvError (msg : String)
  | JsonError (msg : String)
  | IpcError (msg : String)
  | InvalidArgumentError (msg : String)
  | ParquetError (msg : String)
  | CDataInterface (msg : String)
  | DictionaryKeyOverflowError
  | RunEndIndexOverflowError

/-- Embedding of the trait object `Box<dyn Error + Send + Sync>` stored in
`ArrowError::ExternalError`: the boxed error is either an `ArrowError`
itself (as the repository's own test `error_source` exercises) or some
other error type, carried by its message. -/
inductive DynError : Type where
  | arrow (e : ArrowError)
  | other (msg : String)

end

/-- Embedding of `impl Error for ArrowError { fn source(&self) }`
(error.rs lines 107-114): `ExternalError(source)` yields
`Some(source.as_ref())`, every other variant yields `None`. -/
def ArrowError.source : ArrowError → Option DynError
  | .ExternalError s => some s
  | _ => none

/-- Embedding of `ArrowError::from_external_error` (error.rs lines 52-57). -/
def ArrowError.from_external_error (error : DynError) : ArrowError :=
  ArrowError.ExternalError error

/-! ### UTF-8 decoding failures (`From` impls, error.rs lines 59-69)

`core::str::Utf8Error` holds `valid_up_to: usize` and
`error_len: Option<u8>`; its `Display` renders
`invalid utf-8 sequence of {n} bytes from index {i}` when the length is
known and `incomplete utf-8 byte sequence from index {i}` otherwise.
`alloc::string::FromUtf8Error` wraps the input bytes plus a `Utf8Error`
and its `Display` delegates to the inner `Utf8Error`. These are external
(standard library) collaborators; only their observable `to_string`
behaviour matters to the embedded `From` impls. -/

/-- The borrowed-slice UTF-8 failure `core::str::Utf8Error`. -/
structure Utf8Error : Type where
  valid_up_to : Nat
  error_len : Option Nat

/-- The message `Utf8Error::to_string` produces (its `Display` impl). -/
def Utf8Error.toMessage (e : Utf8Error) : String :=
  match e.error_len with
  | some n =>
    "invalid utf-8 sequence of " ++ toString n ++ " bytes from index "
      ++ toString e.valid_up_to
  | none =>
    "incomplete utf-8 byte sequence from index " ++ toString e.valid_up_to

/-- The owned-string UTF-8 failure `alloc::string::FromUtf8Error`: the
bytes that failed to convert plus the underlying `Utf8Error`. -/
structure FromUtf8Error : Type where
  bytes : List Nat
  error : Utf8Error

/-- The message `FromUtf8Error::to_string` produces: its `Display`
delegates to the inner `Utf8Error`. -/
def FromUtf8Error.toMessage (e : FromUtf8Error) : String :=
  e.error.toMessage

/-- Embedding of `impl From<core::str::Utf8Error> for ArrowError`
(error.rs lines 59-63): `ArrowError::ParseError(error.to_string())`. -/
def ArrowError.fromUtf8Error (error : Utf8Error) : ArrowError :=
  ArrowError.ParseError error.toMessage

/-- Embedding of `impl From<alloc::string::FromUtf8Error> for ArrowError`
(error.rs lines 65-69): `ArrowError::ParseError(error.to_string())`. -/
def ArrowError.fromFromUtf8Error (error : FromUtf8Error) : ArrowError :=
  ArrowError.ParseError error.toMessage

/-! ## Allocation and Deallocation (`arrow-buffer/src/allocation/mod.rs`) -/

/-- The capability record of a Rust type: whether it satisfies each of the
three auto/marker traits `RefUnwindSafe`, `Send` and `Sync` that the
`Allocation` trait bounds require. -/
structure TypeCaps : Type where
  refUnwindSafe : Prop
  send : Prop
  sync : Prop

/-- Embedding of `pub trait Allocation: RefUnwindSafe + Send + Sync {}`
together with the blanket `impl<T: RefUnwindSafe + Send + Sync> Allocation
for T {}` (allocation/mod.rs lines 31-33): a type implements `Allocation`
precisely when it has the three marker capabilities — the supertrait bound
gives necessity and the blanket impl gives sufficiency, and the trait adds
no methods of its own (it is a pure marker whose remaining obligation,
releasing the memory on drop, is the doc contract on line 30). -/
def Allocation (t : TypeCaps) : Prop :=
  t.refUnwindSafe ∧ t.send ∧ t.sync

/-- An external owner handed across the foreign boundary: an identity
(distinguishing distinct owners) together with the capability record of
its type. `Arc<dyn Allocation>` erases everything else about the owner. -/
structure OwnerHandle : Type where
  id : Nat
  caps : TypeCaps

/-- Embedding of `core::alloc::Layout`: the size and alignment recorded by
a standard allocation. -/
structure Layout : Type where
  size : Nat
  align : Nat

/-- Embedding of `pub(crate) enum Deallocation` (allocation/mod.rs lines
36-44): `Standard(Layout)` for allocations made via `std::alloc`, and
`Custom(Arc<dyn Allocation>, usize)` holding the shared external owner
plus the tracked byte size used only for memory-usage reporting. -/
inductive Deallocation : Type where
  | Standard (layout : Layout)
  | Custom (owner : OwnerHandle) (size : Nat)

/-- The obligation `Arc<dyn Allocation>` places on the `Custom` variant's
owner: its type must implement the `Allocation` trait. `Standard` carries
no owner and imposes no capability obligation. -/
def Deallocation.ownerOk : Deallocation → Prop
  | .Standard _ => True
  | .Custom o _ => Allocation o.caps

/-- The `Debug` rendering of a `Layout` (its derived `Debug` in `core`),
as interpolated by `write!(f, "Deallocation::Standard {layout:?}")`. -/
def Layout.debugStr (l : Layout) : String :=
  "Layout \x7b size: " ++ toString l.size ++ ", align: " ++ toString l.align
    ++ " \x7d"

/-- Embedding of `impl Debug for Deallocation` (allocation/mod.rs lines
46-57): `Standard` renders the layout, `Custom` renders only the tracked
size as `capacity`, discarding the owner (the `_` pattern on line 52). -/
def Deallocation.debugStr : Deallocation → String
  | .Standard layout => "Deallocation::Standard " ++ layout.debugStr
  | .Custom _ size => "Deallocation::Custom \x7b capacity: " ++ toString size ++ " \x7d"

/-! ## ArrayData (modelled from the spec)

`arrow-data/src/lib.rs` declares `mod data`, `mod equal` and
`pub mod transform`, but those module bodies are not part of the source
tree, so the logical container and its operations are modelled from the
specification text (§3, §4.2, §4.4). -/

/-- Modelled from the spec: `ArrayData` (§3), missing `data.rs`. It
represents `length` logical values starting at `offset` within its
buffers: a decoded value buffer, an optional validity bitmap over the same
buffer positions (bit true = non-null), and a cached null count. Nested
children and the data-type tag are not needed by the claims settled here;
the element type parameter plays the role of the data type. -/
structure ArrayData (α : Type) : Type where
  values : List α
  validity : Option (List Bool)
  offset : Nat
  length : Nat
  nullCount : Nat

/-- Modelled from the spec (§4.2): the null count over `[off, off+len)` is
computed by scanning the validity bitmap once over the constructed range;
with no bitmap it is defined to be zero without any scan (the `none`
branch inspects nothing). -/
def computeNullCount (validity : Option (List Bool)) (off len : Nat) : Nat :=
  match validity with
  | none => 0
  | some bm => ((bm.drop off).take len).count false

/-- Modelled from the spec (§4.2): construction with no explicit null
count computes it from the bitmap over the constructed range. -/
def ArrayData.build {α : Type} (values : List α) (validity : Option (List Bool))
    (off len : Nat) : ArrayData α :=
  ⟨values, validity, off, len, computeNullCount validity off len⟩

/-- The validity bitmap, when present, covers the whole value buffer. -/
def validityCovers (validity : Option (List Bool)) (n : Nat) : Prop :=
  match validity with
  | none => True
  | some bm => bm.length = n

instance instDecValidityCovers (v : Option (List Bool)) (n : Nat) :
    Decidable (validityCovers v n) :=
  match v with
  | none => isTrue trivial
  | some bm => Nat.decEq bm.length n

/-- Modelled from the spec (§3, invariants of `ArrayData`): the range is
in-bounds for the value buffer, the bitmap (when present) covers the
buffer, and the cached null count equals the bitmap scan over the range. -/
def ArrayData.wf {α : Type} (a : ArrayData α) : Prop :=
  a.offset + a.length ≤ a.values.length ∧
  validityCovers a.validity a.values.length ∧
  a.nullCount = computeNullCount a.validity a.offset a.length

/-- Modelled from the spec (§3): bit `offset + i` of the validity bitmap
answers non-null for logical position `i`; with no bitmap every position
is non-null. -/
def ArrayData.isValidAt {α : Type} (a : ArrayData α) (i : Nat) : Bool :=
  match a.validity with
  | none => true
  | some bm => bm.getD (a.offset + i) true

/-- The decoded logical value at position `i`: `none` for a null
position, otherwise the value stored at `offset + i` in the buffer. -/
def ArrayData.logicalAt {α : Type} (a : ArrayData α) (i : Nat) : Option α :=
  if a.isValidAt i then a.values[a.offset + i]? else none

/-- The decoded logical sequence of the array: its `length` logical
values in order. -/
def ArrayData.logicalSeq {α : Type} (a : ArrayData α) : List (Option α) :=
  (List.range a.length).map a.logicalAt

/-- Modelled from the spec (§4.2): the equality contract is decode-based —
the per-index null/non-null flags and decoded values must agree, i.e. the
decoded logical sequences are equal (equal sequences force equal
lengths). -/
def ArrayData.equalContract {α : Type} (a b : ArrayData α) : Prop :=
  a.logicalSeq = b.logicalSeq

/-- Modelled from the spec (§4.2): slicing shares the buffers, adjusts
`offset`/`length` and recomputes the null count for the new range from
the same bitmap. -/
def ArrayData.slice {α : Type} (a : ArrayData α) (o l : Nat) : ArrayData α :=
  ⟨a.values, a.validity, a.offset + o, l,
    computeNullCount a.validity (a.offset + o) l⟩

/-! ### Filter (modelled from the spec §4.4) -/

/-- Whether predicate position `i` selects its element: the predicate
entry must be non-null and true (a null predicate position counts as
false). -/
def predKeep (p : ArrayData Bool) (i : Nat) : Bool :=
  p.isValidAt i && p.values.getD (p.offset + i) false

/-- Modelled from the spec (§4.4): the filter rebuild for the flat layout
walks the logical indices `[i, i+n)` and collects the new value buffer
and the new validity bitmap for the selected positions. -/
def filterCollect {α : Type} [Inhabited α] (a : ArrayData α) (p : ArrayData Bool) :
    Nat → Nat → List α × List Bool
  | _, 0 => ([], [])
  | i, n + 1 =>
    let rest := filterCollect a p (i + 1) n
    if predKeep p i then
      (a.values.getD (a.offset + i) default :: rest.1, a.isValidAt i :: rest.2)
    else rest

/-- Modelled from the spec (§4.4): `filter` rebuilds the value buffer and
validity bitmap from the selected positions and assembles a fresh,
zero-offset `ArrayData` whose null count is computed from the rebuilt
bitmap. -/
def ArrayData.filter {α : Type} [Inhabited α] (a : ArrayData α)
    (p : ArrayData Bool) : ArrayData α :=
  let c := filterCollect a p 0 a.length
  ⟨c.1, some c.2, 0, c.1.length, computeNullCount (some c.2) 0 c.1.length⟩

/-- Spec-side description (§4.4, stated in the spec's own words, for
comparison with the engine): the count of true non-null entries of a
predicate's logical sequence. -/
def trueCount (ps : List (Option Bool)) : Nat :=
  ps.count (some true)

/-- Spec-side description (§4.4, stated in the spec's own words, for
comparison with the engine): the sub-sequence of `xs` at predicate-true
positions, in original relative order. -/
def maskedSubseq {α : Type} (xs : List (Option α)) (ps : List (Option Bool)) :
    List (Option α) :=
  (xs.zip ps).filterMap (fun q => if q.2 = some true then some q.1 else none)

/-! ## Validity bitmap range population count (modelled from the spec §4.3)

The packed-bitmap utilities live in `arrow-buffer` modules that the source
tree does not include (`lib.rs` re-exports `bit_iterator` and `bit_mask`
from them), so both counting strategies are modelled from the
specification text. Bytes are `u8` values, bit `i` is bit `i % 8` of byte
`i / 8` (least-significant first); a byte beyond the buffer reads as
zero. -/

/-- Modelled from the spec (§4.3): the O(1) bit test — byte index
`bit_index / 8`, bit mask `1 <<< (bit_index % 8)`. -/
def bitAt (bytes : List Nat) (i : Nat) : Bool :=
  bytes.getD (i / 8) 0 &&& (1 <<< (i % 8)) != 0

/-- Modelled from the spec (§4.3): the naive bit-by-bit scan of the range
`[off, off + len)`, one bit test per position. -/
def naiveCountRange (bytes : List Nat) : Nat → Nat → Nat
  | _, 0 => 0
  | off, len + 1 =>
    (if bitAt bytes off then 1 else 0) + naiveCountRange bytes (off + 1) len

/-- Population count of a machine word, halving one bit at a time. -/
def popcount (n : Nat) : Nat :=
  if h : n = 0 then 0
  else n % 2 + popcount (n / 2)
decreasing_by exact Nat.div_lt_self (Nat.pos_of_ne_zero h) (by omega)

/-- The little-endian assembly of `k` packed bytes starting at byte index
`base` into one machine-word value. -/
def leWord (bytes : List Nat) : Nat → Nat → Nat
  | _, 0 => 0
  | base, k + 1 => bytes.getD base 0 + 256 * leWord bytes (base + 1) k

/-- The 64-bit word at word index `w` of the packed bytes. -/
def wordAt (bytes : List Nat) (w : Nat) : Nat :=
  leWord bytes (8 * w) 8

/-- Modelled from the spec (§4.3): the full-word range population count.
Each step takes the 64-bit word containing the range's current start bit,
shifts out the bits below the start, masks off the bits past the range's
end (a boundary word) or keeps all 64 bits (an interior word, whose mask
is all-ones), adds the word's popcount, and continues at the next word
boundary. -/
def wordCountRange (bytes : List Nat) (off len : Nat) : Nat :=
  if h : len = 0 then 0
  else
    popcount ((wordAt bytes (off / 64) >>> (off % 64)) &&&
        (1 <<< (min (off + len) (64 * (off / 64) + 64) - off) - 1))
      + wordCountRange bytes (min (off + len) (64 * (off / 64) + 64))
          (len - (min (off + len) (64 * (off / 64) + 64) - off))
decreasing_by omega

/-- The decoded logical values of the window `[i, i+n)` of an array, used
to reason about `filterCollect`'s recursion over a sub-range. -/
def ArrayData.logicalWindow {α : Type} (a : ArrayData α) (i n : Nat) :
    List (Option α) :=
  (List.range n).map (fun j => a.logicalAt (i + j))

/-! ## Theorems -/

/-- C1: The error type `ArrowError` is a closed tagged union consisting of
exactly these failure kinds and no others: not-yet-implemented,
external-error, cast-error, memory-error, parse-error, schema-error,
compute-error, divide-by-zero, arithmetic-overflow, csv, json, ipc,
parquet, invalid-argument, C-data-interface, dictionary-key-overflow, and
run-end-index-overflow. Every value of the type is produced by one of the
seventeen listed constructors. -/
theorem arrowError_closed_taxonomy (e : ArrowError) :
    (∃ s, e = ArrowError.NotYetImplemented s) ∨
    (∃ x, e = ArrowError.ExternalError x) ∨
    (∃ s, e = ArrowError.CastError s) ∨
    (∃ s, e = ArrowError.MemoryError s) ∨
    (∃ s, e = ArrowError.ParseError s) ∨
    (∃ s, e = ArrowError.SchemaError s) ∨
    (∃ s, e = ArrowError.ComputeError s) ∨
    e = ArrowError.DivideByZero ∨
    (∃ s, e = ArrowError.ArithmeticOverflow s) ∨
    (∃ s, e = ArrowError.CsvError s) ∨
    (∃ s, e = ArrowError.JsonError s) ∨
    (∃ s, e = ArrowError.IpcError s) ∨
    (∃ s, e = ArrowError.InvalidArgumentError s) ∨
    (∃ s, e = ArrowError.ParquetError s) ∨
    (∃ s, e = ArrowError.CDataInterface s) ∨
    e = ArrowError.DictionaryKeyOverflowError ∨
    e = ArrowError.RunEndIndexOverflowError := by
  cases e <;> simp

/-- C2: querying an `ArrowError`'s source yields the wrapped underlying
error exactly when the value is the external-error kind: `source e` is
`some x` iff `e = ExternalError x`, and wrapping any error `x` via
`from_external_error` makes `x` reachable as the source, so nested
wrappings unwind one layer per query. -/
theorem arrowError_source_iff_external (e : ArrowError) (x : DynError) :
    (ArrowError.source e = some x ↔ e = ArrowError.ExternalError x) ∧
    ArrowError.source (ArrowError.from_external_error x) = some x := by
  refine ⟨?_, rfl⟩
  cases e <;> simp [ArrowError.source]

/-- C4: converting either malformed-UTF-8 decoding failure (the
borrowed-slice `Utf8Error` or the owned-string `FromUtf8Error`) into an
`ArrowError` yields the parse-error kind carrying the original failure's
rendered message text. -/
theorem utf8_failures_become_parse_errors (e : Utf8Error) (e' : FromUtf8Error) :
    ArrowError.fromUtf8Error e = ArrowError.ParseError e.toMessage ∧
    ArrowError.fromFromUtf8Error e' = ArrowError.ParseError e'.error.toMessage :=
  ⟨rfl, rfl⟩

/-- C5: the Allocation capability is a pure marker contract holding of a
type exactly when it is unwind-safe, thread-sendable and thread-sharable
(the `RefUnwindSafe + Send + Sync` bounds, with the blanket impl making
them sufficient as well as necessary); and every owner satisfying it meets
the obligation of being held as the shared owner handle of a `Custom`
deallocation. -/
theorem allocation_capability_exact (t : TypeCaps) (o : OwnerHandle) (n : Nat)
    (h : Allocation o.caps) :
    (Allocation t ↔ (t.refUnwindSafe ∧ t.send ∧ t.sync)) ∧
    (Deallocation.Custom o n).ownerOk :=
  ⟨Iff.rfl, h⟩

/-- Closed instance of `allocation_capability_exact` at a concrete owner
whose type has all three capabilities. -/
theorem allocation_capability_exact_witness :
    (Allocation ⟨True, True, True⟩ ↔ (True ∧ True ∧ True)) ∧
    (Deallocation.Custom ⟨7, ⟨True, True, True⟩⟩ 64).ownerOk :=
  allocation_capability_exact ⟨True, True, True⟩ ⟨7, ⟨True, True, True⟩⟩ 64
    ⟨trivial, trivial, trivial⟩

/-- C10: the `Debug` rendering of a `Custom` deallocation descriptor
depends only on its tracked byte size, never on the external owner handle:
any two `Custom` descriptors with equal tracked sizes render identically,
and the rendered text is determined by the size alone. -/
theorem custom_deallocation_debug_ignores_owner (o₁ o₂ : OwnerHandle) (s : Nat) :
    (Deallocation.Custom o₁ s).debugStr = (Deallocation.Custom o₂ s).debugStr ∧
    (Deallocation.Custom o₁ s).debugStr =
      "Deallocation::Custom \x7b capacity: " ++ toString s ++ " \x7d" :=
  ⟨rfl, rfl⟩

/-- C7: slicing composes — slicing a slice at `o2, l2` (with
`o2 + l2 ≤ l1`) equals the single slice at `o1 + o2, l2`, both structurally
and under the decode-based equality contract; and the full-range slice of
a well-formed array equals the array itself. -/
theorem slice_composes {α : Type} (a : ArrayData α) (o1 l1 o2 l2 : Nat)
    (h : o2 + l2 ≤ l1) (hwf : a.wf) :
    ((a.slice o1 l1).slice o2 l2 = a.slice (o1 + o2) l2) ∧
    ((a.slice o1 l1).slice o2 l2).equalContract (a.slice (o1 + o2) l2) ∧
    a.slice 0 a.length = a ∧
    (a.slice 0 a.length).equalContract a := by
  obtain ⟨h1, h2, h3⟩ := hwf
  have hs : (a.slice o1 l1).slice o2 l2 = a.slice (o1 + o2) l2 := by
    simp [ArrayData.slice, Nat.add_assoc]
  have hid : a.slice 0 a.length = a := by
    cases a
    simp_all [ArrayData.slice]
  exact ⟨hs, by rw [ArrayData.equalContract, hs], hid,
    by rw [ArrayData.equalContract, hid]⟩

/-- Closed instance of `slice_composes` on a concrete five-element
nullable array: the slice-of-slice at `(1,3)` then `(1,2)` equals the
single slice at `(2,2)`. -/
theorem slice_composes_witness :
    ((ArrayData.build [10, 20, 30, 40, 50]
        (some [true, true, false, true, true]) 0 5).slice 1 3).slice 1 2
      = (ArrayData.build [10, 20, 30, 40, 50]
          (some [true, true, false, true, true]) 0 5).slice 2 2 :=
  (slice_composes _ 1 3 1 2 (by decide) ⟨by decide, by decide, by decide⟩).1

/-- C8: an `ArrayData` without a validity bitmap has null count zero
(established definitionally by the `none` branch of `computeNullCount`,
with no bitmap scan), every valid sub-range slice of it also reports null
count zero, and construction without a bitmap likewise yields null count
zero for any range. -/
theorem no_bitmap_null_count_zero {α : Type} (a : ArrayData α)
    (vs : List α) (boff blen : Nat) (hv : a.validity = none) (hwf : a.wf) :
    a.nullCount = 0 ∧
    (∀ o l, o + l ≤ a.length → (a.slice o l).nullCount = 0) ∧
    (ArrayData.build vs none boff blen).nullCount = 0 := by
  obtain ⟨-, -, h3⟩ := hwf
  refine ⟨?_, ?_, rfl⟩
  · rw [h3, hv]
    rfl
  · intro o l _
    show computeNullCount a.validity (a.offset + o) l = 0
    rw [hv]
    rfl

/-- Closed instance of `no_bitmap_null_count_zero` on a concrete
bitmap-free array with a nonzero offset. -/
theorem no_bitmap_null_count_zero_witness :
    (ArrayData.build [1, 2, 3] (none : Option (List Bool)) 1 2).nullCount = 0 :=
  (no_bitmap_null_count_zero (ArrayData.build [1, 2, 3] none 1 2) [9] 0 1
    rfl ⟨by decide, by decide, by decide⟩).1

theorem filterCollect_len {α : Type} [Inhabited α] (a : ArrayData α)
    (p : ArrayData Bool) :
    ∀ n i, (filterCollect a p i n).1.length = (filterCollect a p i n).2.length := by
  intro n
  induction n with
  | zero => intro i; rfl
  | succ k ih =>
    intro i
    simp only [filterCollect]
    by_cases h : predKeep p i = true
    · simp [h, ih]
    · simp [h, ih]

theorem logicalWindow_zero_length {α : Type} (a : ArrayData α) :
    a.logicalWindow 0 a.length = a.logicalSeq := by
  simp [ArrayData.logicalWindow, ArrayData.logicalSeq]

theorem logicalWindow_succ {α : Type} (a : ArrayData α) (i n : Nat) :
    a.logicalWindow i (n + 1) = a.logicalAt i :: a.logicalWindow (i + 1) n := by
  simp only [ArrayData.logicalWindow, List.range_succ_eq_map, List.map_cons,
    List.map_map]
  refine congrArg₂ List.cons (by rw [Nat.add_zero]) ?_
  congr 1
  funext j
  simp [Function.comp]
  congr 1
  omega

theorem logicalSeq_length {α : Type} (a : ArrayData α) :
    a.logicalSeq.length = a.length := by
  simp [ArrayData.logicalSeq]

theorem logicalAt_eq_some_true_iff (p : ArrayData Bool) (hp : p.wf) (i : Nat)
    (hi : i < p.length) :
    p.logicalAt i = some true ↔ predKeep p i = true := by
  obtain ⟨h1, h2, h3⟩ := hp
  have hb : p.offset + i < p.values.length := by omega
  have hg : p.values.getD (p.offset + i) false = p.values[p.offset + i] := by
    rw [List.getD_eq_getElem?_getD, List.getElem?_eq_getElem hb]
    rfl
  unfold ArrayData.logicalAt predKeep
  by_cases hv : p.isValidAt i
  · rw [List.getElem?_eq_getElem hb]
    simp only [hv, if_true, true_and]
    rw [hg]
    simp
  · simp [hv]

theorem maskedSubseq_cons {α : Type} (x : Option α) (xs : List (Option α))
    (q : Option Bool) (qs : List (Option Bool)) :
    maskedSubseq (x :: xs) (q :: qs) =
      if q = some true then x :: maskedSubseq xs qs else maskedSubseq xs qs := by
  simp only [maskedSubseq, List.zip_cons_cons, List.filterMap_cons]
  by_cases hq : q = some true
  · simp [hq]
  · simp [hq]

theorem filterCollect_spec {α : Type} [Inhabited α] (a : ArrayData α)
    (p : ArrayData Bool) (ha : a.wf) (hp : p.wf) :
    ∀ n i, i + n ≤ a.length → i + n ≤ p.length →
      List.zipWith (fun v b => if b then some v else none)
          (filterCollect a p i n).1 (filterCollect a p i n).2
        = maskedSubseq (a.logicalWindow i n) (p.logicalWindow i n) := by
  intro n
  induction n with
  | zero =>
    intro i _ _
    simp [filterCollect, ArrayData.logicalWindow, maskedSubseq]
  | succ k ih =>
    intro i hia hip
    have hi : i < p.length := by omega
    rw [logicalWindow_succ, logicalWindow_succ, maskedSubseq_cons]
    simp only [filterCollect]
    by_cases hk : predKeep p i = true
    · have hl : p.logicalAt i = some true :=
        (logicalAt_eq_some_true_iff p hp i hi).2 hk
      have hhead : (if a.isValidAt i then
          some (a.values.getD (a.offset + i) default) else none) = a.logicalAt i := by
        obtain ⟨ha1, -, -⟩ := ha
        have hab : a.offset + i < a.values.length := by omega
        unfold ArrayData.logicalAt
        by_cases hv : a.isValidAt i
        · rw [List.getElem?_eq_getElem hab]
          simp only [hv, if_true]
          rw [List.getD_eq_getElem?_getD, List.getElem?_eq_getElem hab]
          rfl
        · simp [hv]
      simp only [hk, if_true, hl, List.zipWith_cons_cons]
      rw [hhead]
      exact congrArg _ (ih (i + 1) (by omega) (by omega))
    · have hl : ¬ p.logicalAt i = some true := fun hc =>
        hk ((logicalAt_eq_some_true_iff p hp i hi).1 hc)
      simp only [hk, if_false, hl]
      exact ih (i + 1) (by omega) (by omega)

theorem logicalSeq_mk_zipWith {α : Type} (vs : List α) (bs : List Bool) (k : Nat)
    (h : bs.length = vs.length) :
    (ArrayData.mk vs (some bs) 0 vs.length k).logicalSeq
      = List.zipWith (fun v b => if b then some v else none) vs bs := by
  apply List.ext_getElem
  · simp [logicalSeq_length, h]
  · intro i h1 h2
    have hi : i < vs.length := by
      simpa [logicalSeq_length] using h1
    have hib : i < bs.length := by omega
    rw [List.getElem_zipWith]
    have hv : vs[(0 : Nat) + i]? = some vs[i] := by
      rw [Nat.zero_add, List.getElem?_eq_getElem hi]
    have hb : bs.getD (0 + i) true = bs[i] := by
      rw [Nat.zero_add, List.getD_eq_getElem?_getD, List.getElem?_eq_getElem hib]
      rfl
    simp only [ArrayData.logicalSeq, List.getElem_map, List.getElem_range,
      ArrayData.logicalAt, ArrayData.isValidAt, hv, hb]

theorem maskedSubseq_length {α : Type} :
    ∀ (xs : List (Option α)) (ps : List (Option Bool)), xs.length = ps.length →
      (maskedSubseq xs ps).length = trueCount ps := by
  intro xs
  induction xs with
  | nil =>
    intro ps h
    cases ps with
    | nil => rfl
    | cons q qt => simp at h
  | cons x xt ih =>
    intro ps h
    cases ps with
    | nil => simp at h
    | cons q qt =>
      simp only [List.length_cons, Nat.add_right_cancel_iff] at h
      rw [maskedSubseq_cons]
      by_cases hq : q = some true
      · simp [hq, trueCount, List.count_cons, ih qt h]
      · simp [hq, trueCount, List.count_cons, ih qt h]

/-- C6: for every well-formed `ArrayData` and same-length boolean
predicate array (null predicate positions counting as false), the filter
result's length equals the number of true non-null predicate entries and
its decoded logical sequence is exactly the sub-sequence of the input's
values at predicate-true positions, in original relative order. -/
theorem filter_matches_predicate {α : Type} [Inhabited α] (a : ArrayData α)
    (p : ArrayData Bool) (ha : a.wf) (hp : p.wf) (hlen : p.length = a.length) :
    (a.filter p).length = trueCount p.logicalSeq ∧
    (a.filter p).logicalSeq = maskedSubseq a.logicalSeq p.logicalSeq := by
  have hcl := filterCollect_len a p a.length 0
  have hseq : (a.filter p).logicalSeq
      = List.zipWith (fun v b => if b then some v else none)
          (filterCollect a p 0 a.length).1 (filterCollect a p 0 a.length).2 :=
    logicalSeq_mk_zipWith _ _ _ hcl.symm
  have hmain := filterCollect_spec a p ha hp a.length 0 (by omega) (by omega)
  rw [logicalWindow_zero_length] at hmain
  rw [show p.logicalWindow 0 a.length = p.logicalSeq by
    rw [← hlen, logicalWindow_zero_length]] at hmain
  have hseq2 : (a.filter p).logicalSeq = maskedSubseq a.logicalSeq p.logicalSeq :=
    hseq.trans hmain
  refine ⟨?_, hseq2⟩
  have hlen2 := congrArg List.length hseq2
  rw [logicalSeq_length] at hlen2
  rw [hlen2, maskedSubseq_length a.logicalSeq p.logicalSeq
    (by rw [logicalSeq_length, logicalSeq_length, hlen])]

/-- Closed instance of `filter_matches_predicate`: the spec's §8
scenario — a five-element nullable integer array with logical values
`[1, 2, 3, null, 5]` filtered by `[true, false, true, true, false]`. -/
theorem filter_matches_predicate_witness :
    ((ArrayData.build [1, 2, 3, 7, 5]
        (some [true, true, true, false, true]) 0 5).filter
      (ArrayData.build [true, false, true, true, false] none 0 5)).length
      = trueCount (ArrayData.build [true, false, true, true, false]
          none 0 5 : ArrayData Bool).logicalSeq ∧
    ((ArrayData.build [1, 2, 3, 7, 5]
        (some [true, true, true, false, true]) 0 5).filter
      (ArrayData.build [true, false, true, true, false] none 0 5)).logicalSeq
      = maskedSubseq (ArrayData.build [1, 2, 3, 7, 5]
          (some [true, true, true, false, true]) 0 5 : ArrayData Nat).logicalSeq
          (ArrayData.build [true, false, true, true, false]
            none 0 5 : ArrayData Bool).logicalSeq :=
  filter_matches_predicate _ _ ⟨by decide, by decide, by decide⟩
    ⟨by decide, by decide, by decide⟩ rfl

theorem popcount_eq_step (x : Nat) : popcount x = x % 2 + popcount (x / 2) := by
  by_cases h : x = 0
  · subst h
    simp [popcount]
  · rw [popcount, dif_neg h]

theorem popcount_zero : popcount 0 = 0 := by
  simp [popcount]

theorem bitAt_eq_testBit (bytes : List Nat) (i : Nat) :
    bitAt bytes i = (bytes.getD (i / 8) 0).testBit (i % 8) := by
  unfold bitAt
  rw [Nat.shiftLeft_eq, Nat.one_mul, Nat.and_two_pow]
  cases h : (bytes.getD (i / 8) 0).testBit (i % 8)
  · simp
  · have : 2 ^ (i % 8) ≠ 0 := Nat.pos_iff_ne_zero.1 (Nat.two_pow_pos (i % 8))
    simp [this]

theorem testBit_add_mul_two_pow :
    ∀ (j k b r : Nat), b < 2 ^ k →
      (b + 2 ^ k * r).testBit j =
        if j < k then b.testBit j else r.testBit (j - k) := by
  intro j
  induction j with
  | zero =>
    intro k b r hb
    cases k with
    | zero =>
      have hb0 : b = 0 := by omega
      subst hb0
      simp
    | succ k' =>
      have he : 2 ^ (k' + 1) * r = 2 * (2 ^ k' * r) := by ring
      rw [he]
      simp only [Nat.testBit_zero, Nat.add_mul_mod_self_left]
      simp [Nat.succ_pos]
  | succ j' ih =>
    intro k b r hb
    cases k with
    | zero =>
      have hb0 : b = 0 := by omega
      subst hb0
      simp
    | succ k' =>
      have he : b + 2 ^ (k' + 1) * r = b + 2 * (2 ^ k' * r) := by ring
      rw [he, Nat.testBit_add_one, Nat.add_mul_div_left _ _ (by omega : (0:Nat) < 2)]
      have hb2 : b / 2 < 2 ^ k' := by
        have : 2 ^ (k' + 1) = 2 ^ k' * 2 := by ring
        rw [this] at hb
        exact Nat.div_lt_of_lt_mul (by omega)
      rw [ih k' (b / 2) r hb2, Nat.testBit_div_two]
      by_cases hjk : j' < k'
      · simp [hjk, Nat.succ_lt_succ hjk]
      · have : ¬ j' + 1 < k' + 1 := by omega
        simp [hjk, this, Nat.succ_sub_succ]

theorem getD_lt_256 (bytes : List Nat) (hb : ∀ b ∈ bytes, b < 256) (i : Nat) :
    bytes.getD i 0 < 256 := by
  rw [List.getD_eq_getElem?_getD]
  by_cases h : i < bytes.length
  · rw [List.getElem?_eq_getElem h]
    exact hb _ (List.getElem_mem h)
  · rw [List.getElem?_eq_none (by omega)]
    simp

theorem leWord_lt (bytes : List Nat) (hb : ∀ b ∈ bytes, b < 256) :
    ∀ (k base : Nat), leWord bytes base k < 2 ^ (8 * k) := by
  intro k
  induction k with
  | zero => intro base; simp [leWord]
  | succ k' ih =>
    intro base
    have h1 : bytes.getD base 0 < 256 := getD_lt_256 bytes hb base
    have h2 : leWord bytes (base + 1) k' < 2 ^ (8 * k') := ih (base + 1)
    have he : 2 ^ (8 * (k' + 1)) = 256 * 2 ^ (8 * k') := by
      rw [show 8 * (k' + 1) = 8 + 8 * k' by ring, pow_add]
      norm_num
    rw [leWord, he]
    calc bytes.getD base 0 + 256 * leWord bytes (base + 1) k'
        < 256 * (leWord bytes (base + 1) k' + 1) := by omega
      _ ≤ 256 * 2 ^ (8 * k') := by
          exact Nat.mul_le_mul_left 256 (by omega)

theorem leWord_testBit (bytes : List Nat) (hb : ∀ b ∈ bytes, b < 256) :
    ∀ (k base j : Nat),
      (leWord bytes base k).testBit j =
        if j < 8 * k then (bytes.getD (base + j / 8) 0).testBit (j % 8)
        else false := by
  intro k
  induction k with
  | zero =>
    intro base j
    simp [leWord]
  | succ k' ih =>
    intro base j
    have h1 : bytes.getD base 0 < 256 := getD_lt_256 bytes hb base
    have he : (256 : Nat) = 2 ^ 8 := by norm_num
    rw [leWord, he, testBit_add_mul_two_pow j 8 _ _ h1]
    by_cases hj : j < 8
    · have hj1 : j < 8 * (k' + 1) := by omega
      have hj2 : j / 8 = 0 := by omega
      have hj3 : j % 8 = j := by omega
      simp [hj, hj1, hj2, hj3]
    · rw [if_neg hj, ih (base + 1) (j - 8)]
      by_cases hjk : j - 8 < 8 * k'
      · have hj1 : j < 8 * (k' + 1) := by omega
        have e1 : base + 1 + (j - 8) / 8 = base + j / 8 := by omega
        have e2 : (j - 8) % 8 = j % 8 := by omega
        simp only [if_pos hjk, if_pos hj1, e1, e2]
      · have hj1 : ¬ j < 8 * (k' + 1) := by omega
        simp only [if_neg hjk, if_neg hj1]

theorem popcount_eq_naive (bytes : List Nat) :
    ∀ (k x s : Nat), x < 2 ^ k →
      (∀ i, i < k → x.testBit i = bitAt bytes (s + i)) →
      popcount x = naiveCountRange bytes s k := by
  intro k
  induction k with
  | zero =>
    intro x s hx _
    have hx0 : x = 0 := by omega
    subst hx0
    rw [popcount_zero]
    rfl
  | succ k' ih =>
    intro x s hx hbit
    rw [popcount_eq_step]
    show x % 2 + popcount (x / 2)
      = (if bitAt bytes s then 1 else 0) + naiveCountRange bytes (s + 1) k'
    have h0 : x % 2 = if bitAt bytes s then 1 else 0 := by
      have hb0 := hbit 0 (by omega)
      rw [Nat.add_zero] at hb0
      rw [Nat.testBit_zero] at hb0
      cases hq : bitAt bytes s
      · rw [hq] at hb0
        simp at hb0
        simp [hb0]
      · rw [hq] at hb0
        simp at hb0
        simp [hb0]
    have h1 : popcount (x / 2) = naiveCountRange bytes (s + 1) k' := by
      apply ih
      · have he : 2 ^ (k' + 1) = 2 ^ k' * 2 := by ring
        rw [he] at hx
        exact Nat.div_lt_of_lt_mul (by omega)
      · intro i hik
        rw [Nat.testBit_div_two, hbit (i + 1) (by omega)]
        congr 1
        omega
    rw [h0, h1]

theorem naiveCountRange_split (bytes : List Nat) :
    ∀ (a b off : Nat),
      naiveCountRange bytes off (a + b)
        = naiveCountRange bytes off a + naiveCountRange bytes (off + a) b := by
  intro a
  induction a with
  | zero =>
    intro b off
    simp [naiveCountRange]
  | succ a' ih =>
    intro b off
    have he : a' + 1 + b = (a' + b) + 1 := by omega
    rw [he]
    show (if bitAt bytes off then 1 else 0) + naiveCountRange bytes (off + 1) (a' + b)
      = ((if bitAt bytes off then 1 else 0) + naiveCountRange bytes (off + 1) a')
        + naiveCountRange bytes (off + (a' + 1)) b
    rw [ih b (off + 1), show off + 1 + a' = off + (a' + 1) by omega]
    omega

/-- C9: for every validity bitmap (a list of bytes, each a `u8` value),
every bit offset and every range length, the word-masked range population
count (shifting and masking the boundary words, summing popcounts of
interior words) returns exactly the same number as the naive bit-by-bit
scan of the same range. -/
theorem wordCount_eq_naive (bytes : List Nat) (hb : ∀ b ∈ bytes, b < 256) :
    ∀ (len off : Nat), wordCountRange bytes off len = naiveCountRange bytes off len := by
  intro len
  induction len using Nat.strongRecOn with
  | ind len ih =>
    intro off
    by_cases h : len = 0
    · subst h
      rw [wordCountRange]
      rfl
    · rw [wordCountRange, dif_neg h]
      have hmask : popcount ((wordAt bytes (off / 64) >>> (off % 64)) &&&
          (1 <<< (min (off + len) (64 * (off / 64) + 64) - off) - 1))
          = naiveCountRange bytes off (min (off + len) (64 * (off / 64) + 64) - off) := by
        apply popcount_eq_naive
        · rw [Nat.shiftLeft_eq, Nat.one_mul, Nat.and_pow_two_sub_one_eq_mod]
          exact Nat.mod_lt _ (Nat.two_pow_pos _)
        · intro i hi
          rw [Nat.shiftLeft_eq, Nat.one_mul, Nat.and_pow_two_sub_one_eq_mod,
            Nat.testBit_mod_two_pow, Nat.testBit_shiftRight]
          rw [decide_eq_true hi, Bool.true_and]
          show (leWord bytes (8 * (off / 64)) 8).testBit (off % 64 + i) = _
          rw [leWord_testBit bytes hb 8 (8 * (off / 64)) (off % 64 + i)]
          have hj : off % 64 + i < 8 * 8 := by omega
          rw [if_pos hj, bitAt_eq_testBit]
          have e1 : 8 * (off / 64) + (off % 64 + i) / 8 = (off + i) / 8 := by omega
          have e2 : (off % 64 + i) % 8 = (off + i) % 8 := by omega
          rw [e1, e2]
      rw [hmask,
        ih (len - (min (off + len) (64 * (off / 64) + 64) - off)) (by omega)
          (min (off + len) (64 * (off / 64) + 64))]
      have hsplit := naiveCountRange_split bytes
        (min (off + len) (64 * (off / 64) + 64) - off)
        (len - (min (off + len) (64 * (off / 64) + 64) - off)) off
      rw [show (min (off + len) (64 * (off / 64) + 64) - off)
          + (len - (min (off + len) (64 * (off / 64) + 64) - off)) = len by omega]
        at hsplit
      rw [hsplit,
        show off + (min (off + len) (64 * (off / 64) + 64) - off)
          = min (off + len) (64 * (off / 64) + 64) by omega]

/-- Closed instance of `wordCount_eq_naive` on a nine-byte bitmap with a
range that starts mid-byte and crosses the 64-bit word boundary. -/
theorem wordCount_eq_naive_witness :
    wordCountRange [178, 255, 0, 7, 9, 255, 255, 255, 123] 3 62
      = naiveCountRange [178, 255, 0, 7, 9, 255, 255, 255, 123] 3 62 :=
  wordCount_eq_naive [178, 255, 0, 7, 9, 255, 255, 255, 123] (by decide) 62 3
